import Mathlib

/-!
Verification of the go-migrations repository (golibry/go-migrations).

Shallow embedding of the migration registry (src/migration/registry.go) and the
MySQL execution-ledger handler (src/execution/repository/mysql.go).

Conventions of the embedding:
* Go uint64 values are modelled as Nat (no arithmetic is performed on versions,
  so no wrap-around can occur); the one place a uint64 is produced from a Go int
  cast is modelled with an explicit mod 2^64.
* Go maps are modelled as association lists in insertion order; map keys are
  unique by construction because Register rejects duplicates.
* A Go method that can return an error and mutates its receiver is modelled as a
  function returning the error option together with the new state.
* panic is modelled as returning an error value of an inductive panic type.
-/

/-- Model of the Migration interface: the core only consumes Version();
the payload field stands for the identity of the underlying user object,
so that two distinct migrations with the same version can be told apart. -/
structure Migration where
  version : Nat
  payload : Nat := 0
deriving DecidableEq, Repr

/-- Model of GenericRegistry: migrations is the map version -> Migration,
kept as an association list in insertion order. -/
structure GenericRegistry where
  migrations : List (Nat × Migration)
deriving DecidableEq, Repr

/-- NewGenericRegistry creates a new, empty registry. -/
def NewGenericRegistry : GenericRegistry := ⟨[]⟩

/-- The key set of the underlying map. -/
def GenericRegistry.keys (r : GenericRegistry) : List Nat :=
  r.migrations.map Prod.fst

/-- Error message returned on a duplicate registration (registry.go lines 49-58). -/
def dupRegisterMsg : String :=
  "failed to register new migration. The migration is already registered"

/-- GenericRegistry.Register: fails when the version key already exists,
otherwise inserts under key migration.Version(). Returns (error, new state);
on the error path the receiver is returned unmodified, mirroring the early
return before the map write. -/
def GenericRegistry.Register (r : GenericRegistry) (m : Migration) :
    Option String × GenericRegistry :=
  if r.keys.contains m.version then
    (some dupRegisterMsg, r)
  else
    (none, ⟨r.migrations ++ [(m.version, m)]⟩)

/-- GenericRegistry.OrderedVersions: collect every registered migration's
Version() and sort ascending (slices.Sort; on Nat the sorted permutation is
unique, so any correct sort gives this result). -/
def GenericRegistry.OrderedVersions (r : GenericRegistry) : List Nat :=
  List.insertionSort (fun a b => a ≤ b) (r.migrations.map (fun p => p.2.version))

/-- GenericRegistry.OrderedMigrations: collect the registered migrations and
sort ascending by Version() (sort.Slice with a strict less on versions; versions
are unique by construction, so the sorted permutation is again unique). -/
def GenericRegistry.OrderedMigrations (r : GenericRegistry) : List Migration :=
  List.insertionSort (fun a b => a.version ≤ b.version) (r.migrations.map Prod.snd)

/-- GenericRegistry.Get: map lookup; nil is modelled as none. -/
def GenericRegistry.Get (r : GenericRegistry) (version : Nat) : Option Migration :=
  (r.migrations.find? (fun p => p.1 == version)).map Prod.snd

/-- GenericRegistry.Count: len of the map. -/
def GenericRegistry.Count (r : GenericRegistry) : Nat :=
  r.migrations.length

/- ------------------- helper lemmas about the registry ------------------- -/

theorem find_pair_of_mem {l : List (Nat × Migration)} {v : Nat} {m : Migration}
    (hnd : (l.map Prod.fst).Nodup) (hm : (v, m) ∈ l) :
    l.find? (fun p => p.1 == v) = some (v, m) := by
  induction l with
  | nil => cases hm
  | cons a t ih =>
    rcases List.mem_cons.mp hm with h | h
    · subst h
      simp [List.find?]
    · have hnd' := hnd
      rw [List.map_cons, List.nodup_cons] at hnd'
      have hv_in : v ∈ t.map Prod.fst := List.mem_map.mpr ⟨(v, m), h, rfl⟩
      have hne : a.1 ≠ v := fun he => hnd'.1 (he ▸ hv_in)
      simp only [List.find?]
      rw [show (a.1 == v) = false from beq_eq_false_iff_ne.mpr hne]
      exact ih hnd'.2 h

theorem find_pair_of_not_mem {l : List (Nat × Migration)} {v : Nat}
    (hv : v ∉ l.map Prod.fst) :
    l.find? (fun p => p.1 == v) = none := by
  induction l with
  | nil => rfl
  | cons a t ih =>
    rw [List.map_cons, List.mem_cons] at hv
    push_neg at hv
    simp only [List.find?]
    rw [show (a.1 == v) = false from beq_eq_false_iff_ne.mpr (Ne.symm hv.1)]
    exact ih hv.2

/- ----------------------------- claim C8 ----------------------------- -/

/-- Claim C8: Get(version) returns the migration registered under that version
when one exists, and otherwise the not-found sentinel (none, modelling nil);
absence is an ordinary query outcome, no error channel exists on Get at all
(its return type carries no error). -/
theorem get_present_or_sentinel (r : GenericRegistry) (v : Nat)
    (hnd : r.keys.Nodup) :
    (∀ m : Migration, (v, m) ∈ r.migrations → r.Get v = some m) ∧
      (v ∉ r.keys → r.Get v = none) := by
  constructor
  · intro m hm
    unfold GenericRegistry.Get
    rw [find_pair_of_mem hnd hm]
    rfl
  · intro hv
    unfold GenericRegistry.Get
    rw [find_pair_of_not_mem hv]
    rfl

/-- Witness for C8 at a concrete registry: version 7 is found, version 99 is
reported by the sentinel. -/
theorem get_present_or_sentinel_witness :
    (GenericRegistry.mk [(7, ⟨7, 0⟩), (9, ⟨9, 1⟩)]).Get 7 = some ⟨7, 0⟩ ∧
      (GenericRegistry.mk [(7, ⟨7, 0⟩), (9, ⟨9, 1⟩)]).Get 99 = none := by
  have h := get_present_or_sentinel (GenericRegistry.mk [(7, ⟨7, 0⟩), (9, ⟨9, 1⟩)]) 7
    (by decide)
  have h99 := get_present_or_sentinel (GenericRegistry.mk [(7, ⟨7, 0⟩), (9, ⟨9, 1⟩)]) 99
    (by decide)
  exact ⟨h.1 ⟨7, 0⟩ (by decide), h99.2 (by decide)⟩

/- ----------------------------- claim C2 ----------------------------- -/

/-- Claim C2: registering a second migration under an already-registered version
returns an error and leaves the registry unchanged: the state is identical, the
count is the same, and Get still returns the first-registered migration, never
the second. -/
theorem register_duplicate_rejected (r : GenericRegistry) (m₁ m₂ : Migration)
    (hv : m₂.version = m₁.version) (hnd : r.keys.Nodup)
    (hm : (m₁.version, m₁) ∈ r.migrations) :
    (r.Register m₂).1 = some dupRegisterMsg ∧
      (r.Register m₂).2 = r ∧
      (r.Register m₂).2.Count = r.Count ∧
      (r.Register m₂).2.Get m₁.version = some m₁ ∧
      (m₂ ≠ m₁ → (r.Register m₂).2.Get m₁.version ≠ some m₂) := by
  have hmem : r.keys.contains m₂.version = true := by
    rw [hv]
    exact List.elem_eq_true_of_mem (List.mem_map.mpr ⟨(m₁.version, m₁), hm, rfl⟩)
  have hreg : r.Register m₂ = (some dupRegisterMsg, r) := by
    unfold GenericRegistry.Register
    rw [hmem]
    simp
  have hget : r.Get m₁.version = some m₁ := by
    unfold GenericRegistry.Get
    rw [find_pair_of_mem hnd hm]
    rfl
  refine ⟨by rw [hreg], by rw [hreg], by rw [hreg], by rw [hreg]; exact hget, ?_⟩
  intro hne
  rw [hreg]
  simp only
  rw [hget]
  intro hcontra
  exact hne (Option.some.inj hcontra).symm

/-- Witness for C2: a concrete registry holding version 5; re-registering
version 5 with a different payload fails and changes nothing. -/
theorem register_duplicate_rejected_witness :
    ((GenericRegistry.mk [(5, ⟨5, 0⟩)]).Register ⟨5, 1⟩).1 = some dupRegisterMsg ∧
      ((GenericRegistry.mk [(5, ⟨5, 0⟩)]).Register ⟨5, 1⟩).2 =
        GenericRegistry.mk [(5, ⟨5, 0⟩)] ∧
      ((GenericRegistry.mk [(5, ⟨5, 0⟩)]).Register ⟨5, 1⟩).2.Count =
        (GenericRegistry.mk [(5, ⟨5, 0⟩)]).Count ∧
      ((GenericRegistry.mk [(5, ⟨5, 0⟩)]).Register ⟨5, 1⟩).2.Get 5 = some ⟨5, 0⟩ := by
  have h := register_duplicate_rejected (GenericRegistry.mk [(5, ⟨5, 0⟩)])
    ⟨5, 0⟩ ⟨5, 1⟩ rfl (by decide) (by decide)
  exact ⟨h.1, h.2.1, h.2.2.1, h.2.2.2.1⟩

/- ----------------------------- claim C3 ----------------------------- -/

theorem map_version_orderedInsert (m : Migration) (l : List Migration) :
    (List.orderedInsert (fun a b => a.version ≤ b.version) m l).map Migration.version =
      List.orderedInsert (fun a b => a ≤ b) m.version (l.map Migration.version) := by
  induction l with
  | nil => rfl
  | cons b t ih =>
    by_cases h : m.version ≤ b.version
    · simp [List.orderedInsert, h]
    · simp [List.orderedInsert, h, ih]

theorem map_version_insertionSort (l : List Migration) :
    (List.insertionSort (fun a b => a.version ≤ b.version) l).map Migration.version =
      List.insertionSort (fun a b => a ≤ b) (l.map Migration.version) := by
  induction l with
  | nil => rfl
  | cons b t ih =>
    simp only [List.insertionSort, List.map_cons]
    rw [map_version_orderedInsert, ih]

/-- Claim C3: OrderedVersions() is the ascending sort of the registered
versions (sorted, and a permutation of the stored versions), independent of
registration order; OrderedMigrations() is the registered migrations sorted
ascending by version, so mapping Version over it gives OrderedVersions. -/
theorem ordered_versions_migrations_spec (r r' : GenericRegistry)
    (hperm : List.Perm r.migrations r'.migrations) :
    List.Sorted (fun a b => a ≤ b) r.OrderedVersions ∧
      List.Perm r.OrderedVersions (r.migrations.map (fun p => p.2.version)) ∧
      r.OrderedMigrations.map Migration.version = r.OrderedVersions ∧
      List.Perm r.OrderedMigrations (r.migrations.map Prod.snd) ∧
      r.OrderedVersions = r'.OrderedVersions := by
  refine ⟨List.sorted_insertionSort _ _, List.perm_insertionSort _ _, ?_, ?_, ?_⟩
  · unfold GenericRegistry.OrderedMigrations GenericRegistry.OrderedVersions
    rw [map_version_insertionSort, List.map_map]
    rfl
  · exact List.perm_insertionSort _ _
  · have hs₁ : List.Sorted (fun a b => a ≤ b) r.OrderedVersions :=
      List.sorted_insertionSort _ _
    have hs₂ : List.Sorted (fun a b => a ≤ b) r'.OrderedVersions :=
      List.sorted_insertionSort _ _
    have hp : List.Perm r.OrderedVersions r'.OrderedVersions :=
      ((List.perm_insertionSort _ _).trans (hperm.map _)).trans
        (List.perm_insertionSort _ _).symm
    exact List.eq_of_perm_of_sorted hp hs₁ hs₂

/-- Witness for C3: registering versions 5, 2, 9 in two different orders yields
the same OrderedVersions. -/
theorem ordered_versions_migrations_spec_witness :
    (GenericRegistry.mk [(5, ⟨5, 0⟩), (2, ⟨2, 0⟩), (9, ⟨9, 0⟩)]).OrderedVersions =
      (GenericRegistry.mk [(9, ⟨9, 0⟩), (5, ⟨5, 0⟩), (2, ⟨2, 0⟩)]).OrderedVersions :=
  (ordered_versions_migrations_spec
    (GenericRegistry.mk [(5, ⟨5, 0⟩), (2, ⟨2, 0⟩), (9, ⟨9, 0⟩)])
    (GenericRegistry.mk [(9, ⟨9, 0⟩), (5, ⟨5, 0⟩), (2, ⟨2, 0⟩)])
    (by decide)).2.2.2.2

/- --------------- directory-backed registry (registry.go 95-209) --------------- -/

/-- Modelled from the spec: the migration source file naming convention constants
FileNamePrefix and FileNameSeparator live in a file of this repository that is
not under src (only registry.go and the example migration files reference them);
the spec fixes the scheme as a fixed prefix + separator + decimal version + a
fixed suffix, and the example migration files are named version_1712953077.go,
so the prefix is "version". -/
def FileNamePfx : List Char := "version".data

/-- Modelled from the spec: the separator of the naming scheme, "_" per the
example migration file names (see FileNamePfx). -/
def FileNameSep : List Char := "_".data

/-- The concatenation FileNamePrefix+FileNameSeparator used by registry.go. -/
def pfxSepChars : List Char := FileNamePfx ++ FileNameSep

/-- The ".go" suffix, used both as a literal and as a TrimRight cutset. -/
def goSuffixChars : List Char := ".go".data

/-- strings.TrimLeft: drop leading characters that are in the cutset
(cutset is a character set, not a literal). -/
def trimLeftCutset (cutset s : List Char) : List Char :=
  s.dropWhile (fun c => cutset.contains c)

/-- strings.TrimRight: drop trailing characters that are in the cutset. -/
def trimRightCutset (cutset s : List Char) : List Char :=
  (trimLeftCutset cutset s.reverse).reverse

/-- Decimal digit test for strconv.Atoi. -/
def isDigitCh (c : Char) : Bool :=
  48 ≤ c.toNat && c.toNat ≤ 57

/-- Value of a nonempty digit string. -/
def digitsToNat (l : List Char) : Nat :=
  l.foldl (fun acc c => acc * 10 + (c.toNat - 48)) 0

/-- Digits part of strconv.Atoi / ParseInt base 10: at least one digit and
nothing but digits, otherwise a syntax error (none). -/
def parseDigits (l : List Char) : Option Nat :=
  if l.isEmpty then none
  else if l.all isDigitCh then some (digitsToNat l) else none

def int64Max : Int := 2 ^ 63 - 1

def int64Min : Int := -(2 ^ 63)

/-- Magnitude-and-range part of strconv.Atoi: values outside the signed 64-bit
int range are a range error (none). -/
def atoiMag (neg : Bool) (digits : List Char) : Option Int :=
  match parseDigits digits with
  | none => none
  | some n =>
    let v : Int := if neg then -(n : Int) else (n : Int)
    if int64Min ≤ v ∧ v ≤ int64Max then some v else none

/-- strconv.Atoi: optional sign, decimal digits, signed 64-bit range check;
none models a non-nil error. -/
def atoi (s : List Char) : Option Int :=
  match s with
  | [] => none
  | c :: rest =>
    if c = '-' then atoiMag true rest
    else if c = '+' then atoiMag false rest
    else atoiMag false s

/-- The Go conversion uint64(version) applied to an int: reduce mod 2^64. -/
def toUInt64Cast (v : Int) : Nat :=
  (v % (2 ^ 64 : Int)).toNat

/-- The Go conversion int(version) applied to a uint64 (used inside
strconv.Itoa(int(version)) when building extra-file names). -/
def intCastOfUInt64 (v : Nat) : Int :=
  if v < 2 ^ 63 then (v : Int) else (v : Int) - 2 ^ 64

/-- strconv.Itoa on an int. -/
def itoaInt (i : Int) : List Char :=
  if i < 0 then '-' :: Nat.toDigits 10 (-i).toNat else Nat.toDigits 10 i.toNat

/-- Model of one os.ReadDir entry: its name and whether it is a subdirectory. -/
structure DirEntry where
  name : List Char
  isDir : Bool
deriving DecidableEq, Repr

/-- The version a directory entry contributes to the scan of
HasAllMigrationsRegistered (registry.go lines 154-167), none when the entry is
skipped: it is a subdirectory, its name lacks the prefix+separator, or the
trimmed version portion fails strconv.Atoi. -/
def parsedOf (e : DirEntry) : Option Nat :=
  if e.isDir || !(List.isPrefixOf pfxSepChars e.name) then none
  else
    match atoi (trimRightCutset goSuffixChars (trimLeftCutset pfxSepChars e.name)) with
    | none => none
    | some v => some (toUInt64Cast v)

/-- The scan loop of HasAllMigrationsRegistered (registry.go lines 153-171):
walks the directory entries, deleting each declared version from the copy of the
registered map and collecting names with no registered version as missing. -/
def processEntries : List DirEntry → List Nat → List (List Char) → List Nat × List (List Char)
  | [], copy, missing => (copy, missing)
  | e :: rest, copy, missing =>
    match parsedOf e with
    | none => processEntries rest copy missing
    | some v =>
      if copy.contains v then processEntries rest (copy.erase v) missing
      else processEntries rest copy (missing ++ [e.name])

/-- File name reconstructed for an extra registered version (registry.go line
174): FileNamePrefix+FileNameSeparator+strconv.Itoa(int(version))+".go". -/
def versionFileName (v : Nat) : List Char :=
  pfxSepChars ++ itoaInt (intCastOfUInt64 v) ++ goSuffixChars

/-- DirMigrationsRegistry.HasAllMigrationsRegistered: the directory behind
dirPath is modelled by the dir argument (an os.ReadDir outcome). Returns
(allRegistered, missing, extra, error) exactly as the Go function does. -/
def HasAllMigrationsRegistered (r : GenericRegistry)
    (dir : Except String (List DirEntry)) :
    Bool × List (List Char) × List (List Char) × Option String :=
  match dir with
  | .error e =>
    (false, [], [],
      some ("failed to check if all migrations have been registered." ++
        " Dir entries read failed with error: " ++ e))
  | .ok entries =>
    let copy := r.migrations.map (fun p => p.2.version)
    let res := processEntries entries copy []
    let extra := res.1.map versionFileName
    (res.2.isEmpty && extra.isEmpty, res.2, extra, none)

/-- The panics the directory registry can raise (modelled as error values). -/
inductive RegistryPanic where
  | regFailed (version : Nat) (msg : String)
  | readDirFailed (msg : String)
  | invalidState (notRegistered extra : List (List Char))
deriving DecidableEq, Repr

/-- Model of DirMigrationsRegistry: the embedded GenericRegistry plus the
directory listing standing for dirPath. -/
structure DirMigrationsRegistry where
  gen : GenericRegistry
  dir : Except String (List DirEntry)
deriving Repr

/-- NewEmptyDirMigrationsRegistry. -/
def NewEmptyDirMigrationsRegistry (dir : Except String (List DirEntry)) :
    DirMigrationsRegistry :=
  ⟨NewGenericRegistry, dir⟩

/-- The registration loop of NewDirMigrationsRegistry (lines 118-126): register
each migration in turn, panicking on the first failure. -/
def registerAll (r : GenericRegistry) : List Migration → Except RegistryPanic GenericRegistry
  | [] => .ok r
  | m :: rest =>
    match r.Register m with
    | (some msg, _) => .error (.regFailed m.version msg)
    | (none, r') => registerAll r' rest

/-- DirMigrationsRegistry.AssertValidRegistry (lines 182-209): panics with both
the not-registered and the extra list when the check fails. -/
def AssertValidRegistry (r : DirMigrationsRegistry) : Except RegistryPanic Unit :=
  let res := HasAllMigrationsRegistered r.gen r.dir
  match res.2.2.2 with
  | some e => .error (.readDirFailed e)
  | none =>
    if !res.1 then .error (.invalidState res.2.1 res.2.2.1) else .ok ()

/-- NewDirMigrationsRegistry (lines 112-130): register everything, then assert
validity; a panic on either phase is the error value. -/
def NewDirMigrationsRegistry (dir : Except String (List DirEntry))
    (allMigrations : List Migration) : Except RegistryPanic DirMigrationsRegistry :=
  match registerAll NewGenericRegistry allMigrations with
  | .error p => .error p
  | .ok g =>
    match AssertValidRegistry ⟨g, dir⟩ with
    | .error p => .error p
    | .ok _ => .ok ⟨g, dir⟩

/-- Declared versions of a directory listing: the versions its entries
contribute to the scan. -/
def parsedVersions (entries : List DirEntry) : List Nat :=
  entries.filterMap parsedOf

/- ----------------------------- claim C1 ----------------------------- -/

/-- Registry as in the C1 scenario: registered versions 1, 2, 7, 8. -/
def regC1 : GenericRegistry :=
  ⟨[(1, ⟨1, 0⟩), (2, ⟨2, 0⟩), (7, ⟨7, 0⟩), (8, ⟨8, 0⟩)]⟩

/-- Directory as in the C1 scenario: declared migration files for 1, 2, 3, 4. -/
def entriesC1 : List DirEntry :=
  [⟨"version_1.go".data, false⟩, ⟨"version_2.go".data, false⟩,
   ⟨"version_3.go".data, false⟩, ⟨"version_4.go".data, false⟩]

/-- Claim C1: with registered versions 1,2,7,8 and declared files 1,2,3,4, one
call to HasAllMigrationsRegistered returns allRegistered = false, missing equal
(as a set) to the file names for 3 and 4, extra equal (as a set) to the file
names for 7 and 8, and no error; both categories come out of the single call. -/
theorem dir_validator_reports_both_categories :
    (HasAllMigrationsRegistered regC1 (.ok entriesC1)).1 = false ∧
      List.Perm (HasAllMigrationsRegistered regC1 (.ok entriesC1)).2.1
        ["version_3.go".data, "version_4.go".data] ∧
      List.Perm (HasAllMigrationsRegistered regC1 (.ok entriesC1)).2.2.1
        ["version_7.go".data, "version_8.go".data] ∧
      (HasAllMigrationsRegistered regC1 (.ok entriesC1)).2.2.2 = none := by
  decide

/- ----------------------------- claim C9 ----------------------------- -/

theorem parsedOf_none_of_skip (e : DirEntry)
    (h : e.isDir = true ∨ List.isPrefixOf pfxSepChars e.name = false ∨
      atoi (trimRightCutset goSuffixChars (trimLeftCutset pfxSepChars e.name)) = none) :
    parsedOf e = none := by
  unfold parsedOf
  rcases h with h | h | h
  · simp [h]
  · simp [h]
  · cases hc : (e.isDir || !(List.isPrefixOf pfxSepChars e.name)) <;> simp [hc, h]

theorem processEntries_skip {e : DirEntry} (he : parsedOf e = none)
    (pre post : List DirEntry) :
    ∀ (copy : List Nat) (missing : List (List Char)),
      processEntries (pre ++ e :: post) copy missing =
        processEntries (pre ++ post) copy missing := by
  induction pre with
  | nil =>
    intro copy missing
    simp [processEntries, he]
  | cons a t ih =>
    intro copy missing
    cases hpa : parsedOf a with
    | none =>
      simp only [List.cons_append, processEntries, hpa]
      exact ih copy missing
    | some v =>
      simp only [List.cons_append, processEntries, hpa]
      by_cases hc : copy.contains v = true
      · rw [if_pos hc, if_pos hc]
        exact ih (copy.erase v) missing
      · rw [if_neg hc, if_neg hc]
        exact ih copy (missing ++ [a.name])

/-- Claim C9: a directory entry that is a subdirectory, lacks the
prefix+separator, or whose version portion fails strconv.Atoi (in particular any
declared version above the signed 64-bit maximum, second conjunct) is silently
skipped: inserting such an entry anywhere in the listing leaves the whole result
of HasAllMigrationsRegistered unchanged, so it contributes to neither the
missing nor the extra list and can never make the registry inconsistent. -/
theorem skipped_entries_never_cause_inconsistency (r : GenericRegistry)
    (pre post : List DirEntry) (e : DirEntry)
    (h : e.isDir = true ∨ List.isPrefixOf pfxSepChars e.name = false ∨
      atoi (trimRightCutset goSuffixChars (trimLeftCutset pfxSepChars e.name)) = none) :
    HasAllMigrationsRegistered r (.ok (pre ++ e :: post)) =
        HasAllMigrationsRegistered r (.ok (pre ++ post)) ∧
      (∀ s : List Char, s.all isDigitCh = true → int64Max < (digitsToNat s : Int) →
        atoi s = none) := by
  constructor
  · have he := parsedOf_none_of_skip e h
    simp only [HasAllMigrationsRegistered]
    rw [processEntries_skip he pre post]
  · intro s hall hlt
    cases s with
    | nil => rfl
    | cons c rest =>
      rw [List.all_cons, Bool.and_eq_true] at hall
      have hdig : isDigitCh c = true := hall.1
      have hneg : ¬(c = '-') := by
        intro hq
        rw [hq] at hdig
        exact absurd hdig (by decide)
      have hpos : ¬(c = '+') := by
        intro hq
        rw [hq] at hdig
        exact absurd hdig (by decide)
      have hpd : parseDigits (c :: rest) = some (digitsToNat (c :: rest)) := by
        unfold parseDigits
        rw [if_neg (by simp), if_pos (by
          rw [List.all_cons, Bool.and_eq_true]
          exact ⟨hdig, hall.2⟩)]
      have hmag : atoiMag false (c :: rest) = none := by
        unfold atoiMag
        rw [hpd]
        simp only
        rw [if_neg]
        intro hcon
        exact absurd hcon.2 (not_le.mpr hlt)
      simp only [atoi]
      rw [if_neg hneg, if_neg hpos]
      exact hmag

/-- Witness for C9: a README.md entry in front of a proper migration file
changes nothing about the validator's verdict. -/
theorem skipped_entries_never_cause_inconsistency_witness :
    HasAllMigrationsRegistered ⟨[(1, ⟨1, 0⟩)]⟩
        (.ok ([] ++ (⟨"README.md".data, false⟩ : DirEntry) ::
          [⟨"version_1.go".data, false⟩])) =
      HasAllMigrationsRegistered ⟨[(1, ⟨1, 0⟩)]⟩
        (.ok ([] ++ [⟨"version_1.go".data, false⟩])) :=
  (skipped_entries_never_cause_inconsistency ⟨[(1, ⟨1, 0⟩)]⟩ []
    [⟨"version_1.go".data, false⟩] ⟨"README.md".data, false⟩
    (Or.inr (Or.inl (by decide)))).1

/- ----------------------------- claim C7 ----------------------------- -/

theorem processEntries_missing_acc :
    ∀ (entries : List DirEntry) (copy : List Nat) (missing : List (List Char)),
      processEntries entries copy missing =
        ((processEntries entries copy []).1,
          missing ++ (processEntries entries copy []).2) := by
  intro entries
  induction entries with
  | nil => intro copy missing; simp [processEntries]
  | cons e rest ih =>
    intro copy missing
    cases hpa : parsedOf e with
    | none =>
      simp only [processEntries, hpa]
      exact ih copy missing
    | some v =>
      simp only [processEntries, hpa]
      by_cases hc : copy.contains v = true
      · rw [if_pos hc, if_pos hc]
        exact ih (copy.erase v) missing
      · rw [if_neg hc, if_neg hc]
        rw [ih copy (missing ++ [e.name]), ih copy ([] ++ [e.name])]
        simp

theorem mem_copy_of_missing_empty :
    ∀ (entries : List DirEntry) (copy : List Nat),
      (processEntries entries copy []).2 = [] →
      ∀ v ∈ parsedVersions entries, v ∈ copy := by
  intro entries
  induction entries with
  | nil =>
    intro copy _ v hv
    simp [parsedVersions] at hv
  | cons e rest ih =>
    intro copy h v hv
    cases hpa : parsedOf e with
    | none =>
      rw [parsedVersions, List.filterMap_cons_none hpa] at hv
      have h' : (processEntries rest copy []).2 = [] := by
        simpa only [processEntries, hpa] using h
      exact ih copy h' v hv
    | some w =>
      rw [parsedVersions, List.filterMap_cons_some hpa] at hv
      by_cases hc : copy.contains w = true
      · have h' : (processEntries rest (copy.erase w) []).2 = [] := by
          simp only [processEntries, hpa] at h
          rw [if_pos hc] at h
          exact h
        rcases List.mem_cons.mp hv with hveq | hv'
        · exact hveq ▸ List.mem_of_elem_eq_true hc
        · exact List.mem_of_mem_erase (ih (copy.erase w) h' v hv')
      · exfalso
        simp only [processEntries, hpa] at h
        rw [if_neg hc] at h
        rw [processEntries_missing_acc rest copy ([] ++ [e.name])] at h
        simp at h

theorem mem_parsed_of_erased :
    ∀ (entries : List DirEntry) (copy : List Nat) (missing : List (List Char)) (v : Nat),
      v ∈ copy → v ∉ (processEntries entries copy missing).1 →
      v ∈ parsedVersions entries := by
  intro entries
  induction entries with
  | nil =>
    intro copy missing v hv hnv
    exact absurd hv (by simpa [processEntries] using hnv)
  | cons e rest ih =>
    intro copy missing v hv hnv
    cases hpa : parsedOf e with
    | none =>
      rw [parsedVersions, List.filterMap_cons_none hpa]
      simp only [processEntries, hpa] at hnv
      exact ih copy missing v hv hnv
    | some w =>
      rw [parsedVersions, List.filterMap_cons_some hpa]
      simp only [processEntries, hpa] at hnv
      by_cases hc : copy.contains w = true
      · rw [if_pos hc] at hnv
        by_cases hvw : v = w
        · exact hvw ▸ List.mem_cons_self w (parsedVersions rest)
        · have hv' : v ∈ copy.erase w := (List.mem_erase_of_ne hvw).mpr hv
          exact List.mem_cons_of_mem _ (ih (copy.erase w) missing v hv' hnv)
      · rw [if_neg hc] at hnv
        exact List.mem_cons_of_mem _ (ih copy _ v hv hnv)

theorem registerAll_ok (ms : List Migration) :
    ∀ (r : GenericRegistry),
      (∀ m ∈ ms, m.version ∉ r.keys) → (ms.map Migration.version).Nodup →
      registerAll r ms = .ok ⟨r.migrations ++ ms.map (fun m => (m.version, m))⟩ := by
  induction ms with
  | nil =>
    intro r _ _
    simp [registerAll]
  | cons m rest ih =>
    intro r hd hnd
    have h1 : m.version ∉ r.keys := hd m (List.mem_cons_self m rest)
    have hme : r.keys.contains m.version = false := by
      cases hcc : r.keys.contains m.version with
      | false => rfl
      | true => exact absurd (List.mem_of_elem_eq_true hcc) h1
    rw [List.map_cons, List.nodup_cons] at hnd
    simp only [registerAll, GenericRegistry.Register, hme, Bool.false_eq_true,
      if_false]
    rw [ih ⟨r.migrations ++ [(m.version, m)]⟩ ?hd ?hnd]
    · simp
    case hd =>
      intro m' hm'
      unfold GenericRegistry.keys
      simp only [List.map_append, List.map_cons]
      intro hin
      rcases List.mem_append.mp hin with hin | hin
      · exact hd m' (List.mem_cons_of_mem m hm') hin
      · simp at hin
        exact hnd.1 (hin ▸ List.mem_map.mpr ⟨m', hm', rfl⟩)
    case hnd => exact hnd.2

/-- Claim C7: when the declared versions of the directory do not coincide (as a
set) with the versions of the migrations handed to the constructor,
NewDirMigrationsRegistry panics before any run with an invalid-state panic that
carries both the not-registered list and the extra list (both fields are always
present in the panic, and at least one of them is nonempty). -/
theorem constructor_panics_on_mismatch (entries : List DirEntry) (all : List Migration)
    (hnd : (all.map Migration.version).Nodup)
    (hne : ¬ ∀ v : Nat, (v ∈ parsedVersions entries ↔ v ∈ all.map Migration.version)) :
    NewDirMigrationsRegistry (.ok entries) all =
      .error (.invalidState
        (processEntries entries (all.map Migration.version) []).2
        ((processEntries entries (all.map Migration.version) []).1.map versionFileName)) ∧
      ¬((processEntries entries (all.map Migration.version) []).2 = [] ∧
        (processEntries entries (all.map Migration.version) []).1 = []) := by
  have hkey : ¬((processEntries entries (all.map Migration.version) []).2 = [] ∧
      (processEntries entries (all.map Migration.version) []).1 = []) := by
    rintro ⟨hm, hc⟩
    apply hne
    intro v
    constructor
    · intro hv
      exact mem_copy_of_missing_empty entries (all.map Migration.version) hm v hv
    · intro hv
      refine mem_parsed_of_erased entries (all.map Migration.version) [] v hv ?_
      rw [hc]
      exact List.not_mem_nil v
  have hra : registerAll NewGenericRegistry all =
      .ok ⟨[] ++ all.map (fun m => (m.version, m))⟩ :=
    registerAll_ok all NewGenericRegistry (by intro m _ h; simp [NewGenericRegistry,
      GenericRegistry.keys] at h) hnd
  have hmapv : ((⟨[] ++ all.map (fun m => (m.version, m))⟩ :
      GenericRegistry).migrations.map (fun p => p.2.version)) =
      all.map Migration.version := by
    simp
  refine ⟨?_, hkey⟩
  simp only [NewDirMigrationsRegistry, hra]
  simp only [AssertValidRegistry, HasAllMigrationsRegistered, hmapv]
  have hfalse : ((processEntries entries (all.map Migration.version) []).2.isEmpty &&
      ((processEntries entries (all.map Migration.version) []).1.map
        versionFileName).isEmpty) = false := by
    by_contra hcon
    rw [Bool.not_eq_false, Bool.and_eq_true] at hcon
    apply hkey
    constructor
    · exact List.isEmpty_iff.mp hcon.1
    · have := List.isEmpty_iff.mp hcon.2
      exact List.map_eq_nil_iff.mp this
  rw [hfalse]
  rfl

/-- Witness for C7: one declared file for version 3 and an empty registration
list make the constructor panic with the missing list holding that file and an
empty extra list. -/
theorem constructor_panics_on_mismatch_witness :
    NewDirMigrationsRegistry (.ok [⟨"version_3.go".data, false⟩]) [] =
      .error (.invalidState ["version_3.go".data] []) :=
  (constructor_panics_on_mismatch [⟨"version_3.go".data, false⟩] []
    (by decide)
    (by
      intro hall
      exact absurd ((hall 3).mp (by decide)) (by decide))).1

/- -------- MySQL execution ledger (execution/repository/mysql.go) -------- -/

/-- MigrationExecution record: version, executed_at_ms, finished_at_ms. -/
structure MigrationExecution where
  version : Nat
  executedAtMs : Nat
  finishedAtMs : Nat
deriving DecidableEq, Repr

/-- Model of the sql.Rows cursor the SELECT of LoadExecutions returns: the
sequence of row-decode outcomes (rows.Next + rows.Scan), the rows.Err() value
observed after a clean iteration, and the rows.Close() outcome. -/
structure RowsModel where
  rows : List (Except String MigrationExecution)
  iterErr : Option String
  closeErr : Option String

/-- The scan loop of LoadExecutions (mysql.go lines 75-81): append each decoded
record, stop at the first Scan error. -/
def scanRows : List (Except String MigrationExecution) → List MigrationExecution →
    List MigrationExecution × Option String
  | [], acc => (acc, none)
  | .error e :: _, acc => (acc, some e)
  | .ok x :: rest, acc => scanRows rest (acc ++ [x])

/-- MysqlHandler.LoadExecutions (mysql.go lines 59-85). The query outcome is the
argument; a Go error is modelled as a list of messages (nil error = []), so that
errors.Join is list append. The deferred rows.Close handler joins its error to
err only when err is already non-nil (lines 69-73). -/
def LoadExecutions (q : Except String RowsModel) :
    List MigrationExecution × List String :=
  match q with
  | .error e => ([], [e])
  | .ok rm =>
    let sr := scanRows rm.rows []
    let err : List String :=
      match sr.2 with
      | some e => [e]
      | none =>
        match rm.iterErr with
        | some e => [e]
        | none => []
    match rm.closeErr with
    | some ce => if err.isEmpty then (sr.1, err) else (sr.1, err ++ [ce])
    | none => (sr.1, err)

/-- Effect on the stored table of the INSERT ... ON DUPLICATE KEY UPDATE issued
by MysqlHandler.Save (mysql.go lines 87-96), under MySQL semantics for a table
whose primary key is version: update the timestamps of the row with the same
version if one exists, otherwise append the new row. -/
def saveRow : List MigrationExecution → MigrationExecution → List MigrationExecution
  | [], e => [e]
  | r :: rest, e =>
    if r.version == e.version then
      ⟨r.version, e.executedAtMs, e.finishedAtMs⟩ :: rest
    else r :: saveRow rest e

/-- MysqlHandler.Save: the statement itself cannot fail on a well-formed table
(an error could only come from the connection, which is outside this model), so
the error component is always none. -/
def Save (table : List MigrationExecution) (e : MigrationExecution) :
    List MigrationExecution × Option String :=
  (saveRow table e, none)

/-- MysqlHandler.Remove (mysql.go lines 98-105): DELETE FROM table WHERE
version = e.version; deleting zero rows is an ordinary success, so the error
component is always none. -/
def Remove (table : List MigrationExecution) (e : MigrationExecution) :
    List MigrationExecution × Option String :=
  (table.filter (fun r => !(r.version == e.version)), none)

/-- Row lookup by version (the SELECT of MysqlHandler.FindOne). -/
def findRow (table : List MigrationExecution) (v : Nat) : Option MigrationExecution :=
  table.find? (fun r => r.version == v)

theorem scanRows_ok_all (good : List MigrationExecution) :
    ∀ acc, scanRows (good.map Except.ok) acc = (acc ++ good, none) := by
  induction good with
  | nil => intro acc; simp [scanRows]
  | cons x rest ih =>
    intro acc
    simp only [List.map_cons, scanRows]
    rw [ih (acc ++ [x])]
    simp

theorem scanRows_ok_then_error (good : List MigrationExecution) (e : String)
    (rest : List (Except String MigrationExecution)) :
    ∀ acc, scanRows (good.map Except.ok ++ .error e :: rest) acc = (acc ++ good, some e) := by
  induction good with
  | nil => intro acc; simp [scanRows]
  | cons x g ih =>
    intro acc
    simp only [List.map_cons, List.cons_append, scanRows, List.append_eq]
    rw [ih (acc ++ [x])]
    simp

/- ----------------------------- claim C4 ----------------------------- -/

/-- Claim C4: when a row fails to decode after some rows already decoded, the
call returns the records decoded so far together with a non-nil error (which
contains the scan error), so a non-nil error means the result may be partial. -/
theorem load_partial_on_scan_failure (good : List MigrationExecution) (e : String)
    (rest : List (Except String MigrationExecution)) (ie ce : Option String) :
    (LoadExecutions (.ok ⟨good.map Except.ok ++ .error e :: rest, ie, ce⟩)).1 = good ∧
      (LoadExecutions (.ok ⟨good.map Except.ok ++ .error e :: rest, ie, ce⟩)).2 ≠ [] ∧
      e ∈ (LoadExecutions (.ok ⟨good.map Except.ok ++ .error e :: rest, ie, ce⟩)).2 := by
  have hs := scanRows_ok_then_error good e rest []
  cases ce with
  | none => simp [LoadExecutions, hs]
  | some c => simp [LoadExecutions, hs]

/-- Witness for C4: one decoded record followed by a failing row yields that
record plus the error. -/
theorem load_partial_on_scan_failure_witness :
    (LoadExecutions
        (.ok ⟨[Except.ok ⟨1, 2, 3⟩, Except.error "bad row"], none, none⟩)).1 =
      [⟨1, 2, 3⟩] ∧
      "bad row" ∈ (LoadExecutions
        (.ok ⟨[Except.ok ⟨1, 2, 3⟩, Except.error "bad row"], none, none⟩)).2 := by
  have h := load_partial_on_scan_failure [⟨1, 2, 3⟩] "bad row" [] none none
  exact ⟨h.1, h.2.2⟩

/- ----------------------------- claim C10 ----------------------------- -/

/-- Claim C10: a rows.Close failure is joined only to an already non-nil error:
after a clean full scan it is discarded and the call returns the full result
with a nil error (first conjunct); when the scan failed, or rows.Err() was
non-nil after iteration, the close error is appended to that existing error
(second and third conjuncts). -/
theorem close_error_only_joins_existing (good : List MigrationExecution)
    (ce e ie : String) (rest : List (Except String MigrationExecution)) :
    LoadExecutions (.ok ⟨good.map Except.ok, none, some ce⟩) = (good, []) ∧
      (LoadExecutions (.ok ⟨good.map Except.ok ++ .error e :: rest, none, some ce⟩)).2 =
        [e, ce] ∧
      (LoadExecutions (.ok ⟨good.map Except.ok, some ie, some ce⟩)).2 = [ie, ce] := by
  have h1 := scanRows_ok_all good []
  have h2 := scanRows_ok_then_error good e rest []
  refine ⟨?_, ?_, ?_⟩ <;> simp [LoadExecutions, h1, h2]

/-- Witness for C10: a clean one-row scan with a failing close still returns the
row with a nil error. -/
theorem close_error_only_joins_existing_witness :
    LoadExecutions (.ok ⟨[Except.ok ⟨1, 2, 3⟩], none, some "close failed"⟩) =
      ([⟨1, 2, 3⟩], []) :=
  (close_error_only_joins_existing [⟨1, 2, 3⟩] "close failed" "x" "y" []).1

/- ----------------------------- claim C5 ----------------------------- -/

theorem saveRow_absent (e : MigrationExecution) :
    ∀ table : List MigrationExecution,
      (∀ r ∈ table, r.version ≠ e.version) → saveRow table e = table ++ [e] := by
  intro table
  induction table with
  | nil => intro _; rfl
  | cons r rest ih =>
    intro h
    have hr : r.version ≠ e.version := h r (List.mem_cons_self r rest)
    simp only [saveRow, beq_eq_false_iff_ne.mpr hr, Bool.false_eq_true, if_false]
    rw [ih (fun x hx => h x (List.mem_cons_of_mem r hx))]
    simp

theorem saveRow_present (e : MigrationExecution) :
    ∀ table : List MigrationExecution,
      (table.map MigrationExecution.version).Nodup →
      ∀ r₀, findRow table e.version = some r₀ →
      findRow (saveRow table e) e.version =
          some ⟨e.version, e.executedAtMs, e.finishedAtMs⟩ ∧
        (saveRow table e).length = table.length ∧
        (∀ r ∈ table, r.version ≠ e.version → r ∈ saveRow table e) := by
  intro table
  induction table with
  | nil =>
    intro _ r₀ h
    simp [findRow] at h
  | cons r rest ih =>
    intro hnd r₀ hf
    rw [List.map_cons, List.nodup_cons] at hnd
    by_cases hb : r.version = e.version
    · have hbeq : (r.version == e.version) = true := beq_iff_eq.mpr hb
      simp only [saveRow, hbeq, if_true]
      refine ⟨?_, rfl, ?_⟩
      · simp only [findRow, List.find?]
        rw [show ((⟨r.version, e.executedAtMs, e.finishedAtMs⟩ :
          MigrationExecution).version == e.version) = true from hbeq]
        rw [hb]
      · intro x hx hne
        rcases List.mem_cons.mp hx with h | h
        · exact absurd (by rw [h]; exact hb) hne
        · exact List.mem_cons_of_mem _ h
    · have hbeq : (r.version == e.version) = false := beq_eq_false_iff_ne.mpr hb
      simp only [saveRow, hbeq, Bool.false_eq_true, if_false]
      have hf' : findRow rest e.version = some r₀ := by
        simp only [findRow, List.find?, hbeq] at hf
        exact hf
      have ihh := ih hnd.2 r₀ hf'
      refine ⟨?_, ?_, ?_⟩
      · simp only [findRow, List.find?, hbeq]
        exact ihh.1
      · simp only [List.length_cons, ihh.2.1]
      · intro x hx hne
        rcases List.mem_cons.mp hx with h | h
        · exact h ▸ List.mem_cons_self r (saveRow rest e)
        · exact List.mem_cons_of_mem _ (ihh.2.2 x h hne)

/-- Claim C5: Save has upsert semantics. If no stored record has the saved
version, the row is inserted (the table grows by exactly that record) and the
call succeeds; if a record with that version exists, its two timestamps are
updated to the new values, the table keeps its size, every other record is kept,
and the call succeeds. -/
theorem save_upserts (table : List MigrationExecution) (e : MigrationExecution)
    (hnd : (table.map MigrationExecution.version).Nodup) :
    ((∀ r ∈ table, r.version ≠ e.version) →
        Save table e = (table ++ [e], none)) ∧
      (∀ r₀, findRow table e.version = some r₀ →
        findRow (Save table e).1 e.version =
            some ⟨e.version, e.executedAtMs, e.finishedAtMs⟩ ∧
          (Save table e).1.length = table.length ∧
          (∀ r ∈ table, r.version ≠ e.version → r ∈ (Save table e).1) ∧
          (Save table e).2 = none) := by
  constructor
  · intro h
    simp only [Save, saveRow_absent e table h]
  · intro r₀ hf
    have h := saveRow_present e table hnd r₀ hf
    exact ⟨h.1, h.2.1, h.2.2, rfl⟩

/-- Witness for C5: updating the record for version 1 replaces its timestamps
and keeps the table size; saving version 3 into a table holding only version 2
appends it. -/
theorem save_upserts_witness :
    findRow (Save [⟨1, 10, 11⟩] ⟨1, 20, 21⟩).1 1 = some ⟨1, 20, 21⟩ ∧
      (Save [⟨1, 10, 11⟩] ⟨1, 20, 21⟩).1.length = 1 ∧
      Save [⟨2, 10, 11⟩] ⟨3, 20, 21⟩ = ([⟨2, 10, 11⟩, ⟨3, 20, 21⟩], none) := by
  have h1 := (save_upserts [⟨1, 10, 11⟩] ⟨1, 20, 21⟩ (by decide)).2 ⟨1, 10, 11⟩ (by decide)
  have h2 := (save_upserts [⟨2, 10, 11⟩] ⟨3, 20, 21⟩ (by decide)).1 (by decide)
  exact ⟨h1.1, h1.2.1, h2⟩

/- ----------------------------- claim C6 ----------------------------- -/

/-- Claim C6: Remove keeps exactly the records whose version differs from the
given execution's version (so the matching record is deleted), always succeeds,
and when no stored record has that version the call succeeds with the storage
unchanged. -/
theorem remove_deletes_and_missing_is_ok (table : List MigrationExecution)
    (e : MigrationExecution) :
    (∀ r : MigrationExecution,
        r ∈ (Remove table e).1 ↔ (r ∈ table ∧ r.version ≠ e.version)) ∧
      (Remove table e).2 = none ∧
      ((∀ r ∈ table, r.version ≠ e.version) → Remove table e = (table, none)) := by
  refine ⟨?_, rfl, ?_⟩
  · intro r
    simp [Remove, List.mem_filter]
  · intro h
    have hfe : table.filter (fun r => !(r.version == e.version)) = table := by
      apply List.filter_eq_self.mpr
      intro a ha
      simpa using h a ha
    simp only [Remove, hfe]

/-- Witness for C6: removing version 42 from a table holding only version 7
succeeds and leaves the table unchanged. -/
theorem remove_deletes_and_missing_is_ok_witness :
    Remove [⟨7, 1, 2⟩] ⟨42, 5, 6⟩ = ([⟨7, 1, 2⟩], none) :=
  (remove_deletes_and_missing_is_ok [⟨7, 1, 2⟩] ⟨42, 5, 6⟩).2.2 (by decide)
